import Mathlib

/-!
Shallow embedding of the automation scripts of this repository
(CIA reading-room scraper, FBI Vault scraper, state-department scraper,
FRED downloader, gmail mbox archiving pipeline), together with proofs
about the spec claims.  Every definition is translated from the Python
source; side effects (file writes, child-process invocations, browser
navigation) are made explicit as oracles, traces, or returned data.
-/

set_option autoImplicit false
set_option maxRecDepth 4000

namespace Spec2Proof

/-! ## gmail_backup_and_clean/4_pdf_compress.py  (claims C7, C8)

The per-file decision logic of main (lines 182-258) and the child-process
protocol of run_with_timeout (lines 51-82).  File sizes are modelled in
bytes; the script compares sizes after dividing by 1024*1024 in IEEE
doubles, and division of a 64-bit size by the constant 2^20 is exact and
strictly monotone, so byte comparison is equivalent. -/

/-- Configuration constant ALWAYS_KEEP_SMALLEST (4_pdf_compress.py line 15). -/
def alwaysKeepSmallest : Bool := true

/-- The observable outcome of one compress_with_ghostscript call:
whether it returned True, whether the temp file exists afterwards and
the temp file's size in bytes. -/
structure GsRun where
  success : Bool
  tempExists : Bool
  tempSize : Nat
  deriving DecidableEq, Repr

/-- Which content ends up at the output path for one processed PDF. -/
inductive Kept where
  | compressed
  | original
  deriving DecidableEq, Repr

/-- Outcome of processing one PDF whose output path did not yet exist:
the size of the file now at the output path, which content was kept, and
whether the .temp.pdf file remains. -/
structure FileResult where
  outSize : Nat
  kept : Kept
  tempLeft : Bool
  deriving DecidableEq, Repr

/-- Embeds the not-already-existing branch of the per-file loop body of
main (4_pdf_compress.py lines 206-258): keep the Ghostscript result only
when it is strictly smaller (ALWAYS_KEEP_SMALLEST is true), otherwise
copy the original and unlink the temp file; on failure or timeout copy
the original and unlink the temp file if present. -/
def processPdf (origSize : Nat) (gs : GsRun) : FileResult :=
  if gs.success && gs.tempExists then
    if gs.tempSize < origSize || !alwaysKeepSmallest then
      { outSize := gs.tempSize, kept := Kept.compressed, tempLeft := false }
    else
      { outSize := origSize, kept := Kept.original, tempLeft := false }
  else
    { outSize := origSize, kept := Kept.original, tempLeft := false }

/-- Embeds the full per-file loop body of main (lines 194-258), including
the skip of files whose output path already exists (lines 194-204):
none means the file was skipped without any write. -/
def processPdfItem (outExists : Bool) (origSize : Nat) (gs : GsRun) :
    Option FileResult :=
  if outExists then none else some (processPdf origSize gs)

/-- A child-process event of the compression script: starting the
Ghostscript process for file i, or blocking until it finishes. -/
inductive ProcEv where
  | spawn (i : Nat)
  | wait (i : Nat)
  deriving DecidableEq, Repr

/-- Child-process events produced while handling one input PDF: nothing
when the output already exists, otherwise exactly one Popen
(run_with_timeout line 57) followed by the blocking communicate
(line 65). -/
def compressFileEvents (outExists : Bool) (i : Nat) : List ProcEv :=
  if outExists then [] else [ProcEv.spawn i, ProcEv.wait i]

/-- The child-process trace of main's sequential for loop over all PDFs
(lines 182-258), file i given by position; the Bool says whether that
file's output already exists. -/
def compressTrace : Nat → List Bool → List ProcEv
  | _, [] => []
  | i, ex :: rest => compressFileEvents ex i ++ compressTrace (i + 1) rest

/-- A trace is strictly sequential when every spawned child is waited on
immediately, before anything else happens: no two children ever overlap. -/
def seqOk : List ProcEv → Bool
  | [] => true
  | ProcEv.spawn i :: ProcEv.wait j :: rest => i == j && seqOk rest
  | _ => false

theorem seqOk_compressTrace (i : Nat) (exs : List Bool) :
    seqOk (compressTrace i exs) = true := by
  induction exs generalizing i with
  | nil => rfl
  | cons ex rest ih =>
    cases ex <;> simp [compressTrace, compressFileEvents, seqOk, ih]

/-- C7: the compression script is synchronous and sequential: its
child-process trace consists of immediately-waited-on children, one per
not-yet-compressed input file, in input order, and the per-file results
are a pure function of the per-file child outcomes (no shared mutable
state between items). -/
theorem c7_single_threaded_sequential (exs : List Bool) :
    seqOk (compressTrace 0 exs) = true ∧
      (∀ origSize gs, processPdfItem false origSize gs = some (processPdf origSize gs)) ∧
      (∀ origSize gs, processPdfItem true origSize gs = none) := by
  refine ⟨seqOk_compressTrace 0 exs, fun _ _ => rfl, fun _ _ => rfl⟩

/-- C8: for a PDF whose output path does not already exist, processing
always leaves a file at the output path of size at most the original;
the Ghostscript result is kept exactly when the call succeeded, the temp
file exists and it is strictly smaller than the original; in every other
case the original is copied unchanged and the temp file is removed. -/
theorem c8_compress_keeps_smallest (origSize : Nat) (gs : GsRun) :
    processPdfItem false origSize gs = some (processPdf origSize gs) ∧
      (processPdf origSize gs).outSize ≤ origSize ∧
      (processPdf origSize gs).tempLeft = false ∧
      ((processPdf origSize gs).kept = Kept.compressed ↔
        (gs.success = true ∧ gs.tempExists = true ∧ gs.tempSize < origSize)) ∧
      ((processPdf origSize gs).kept = Kept.original →
        (processPdf origSize gs).outSize = origSize) := by
  refine ⟨rfl, ?_, ?_, ?_, ?_⟩ <;>
    · unfold processPdf alwaysKeepSmallest
      rcases gs with ⟨s, t, sz⟩
      by_cases hlt : sz < origSize <;>
        cases s <;> cases t <;> simp [hlt] <;> omega

/-- Witness for c8_compress_keeps_smallest at a Ghostscript run that
shrinks a 100-byte PDF to 50 bytes. -/
theorem c8_compress_keeps_smallest_witness :
    processPdfItem false 100 (GsRun.mk true true 50)
        = some (processPdf 100 (GsRun.mk true true 50)) ∧
      (processPdf 100 (GsRun.mk true true 50)).outSize ≤ 100 ∧
      (processPdf 100 (GsRun.mk true true 50)).tempLeft = false ∧
      ((processPdf 100 (GsRun.mk true true 50)).kept = Kept.compressed ↔
        ((GsRun.mk true true 50).success = true ∧
          (GsRun.mk true true 50).tempExists = true ∧
          (GsRun.mk true true 50).tempSize < 100)) ∧
      ((processPdf 100 (GsRun.mk true true 50)).kept = Kept.original →
        (processPdf 100 (GsRun.mk true true 50)).outSize = 100) :=
  c8_compress_keeps_smallest 100 (GsRun.mk true true 50)

/-! ## Command-line surface of the twelve scripts  (claim C6)

Each script's argument handling, transcribed from its source: the
argparse declarations of fbi_vault_scraper/app.py main (lines 1599-1603),
the sys.argv reads of 2_consolidate_files_into_single_pdf.py (lines
1861-1864), and the input() prompts; the remaining scripts read no
command-line arguments at all. -/

/-- Kind of a command-line argument: a positional argument or an
optional flag. -/
inductive ArgKind where
  | positional
  | flag
  deriving DecidableEq, Repr

/-- One command-line argument a script accepts. -/
structure CliArg where
  name : String
  kind : ArgKind
  deriving DecidableEq, Repr

/-- The command-line surface of one script: the arguments it accepts and
whether it reads interactive answers from standard input. -/
structure ScriptCli where
  script : String
  args : List CliArg
  prompts : Bool
  deriving DecidableEq, Repr

/-- fbi_vault_scraper/app.py main, lines 1600-1603: one positional
argument and three optional flags; the script also prompts on stdin
during the OCR phase (lines 1437, 1524, 1557, 1618). -/
def fbiVaultCli : ScriptCli :=
  { script := "fbi_vault_scraper/app.py"
    args := [{ name := "term", kind := ArgKind.positional },
             { name := "--max", kind := ArgKind.flag },
             { name := "--download-dir", kind := ArgKind.flag },
             { name := "--skip-deps", kind := ArgKind.flag }]
    prompts := true }

/-- The command-line surface of all twelve scripts of the repository. -/
def allScriptClis : List ScriptCli :=
  [ { script := "cia_reading_room_scraper/cia_rdp96_app.py", args := [], prompts := false },
    { script := "cia_reading_room_scraper/json_search.py", args := [], prompts := false },
    fbiVaultCli,
    { script := "fed_res_eco_data/fed_reserve_scrape_app.py", args := [], prompts := true },
    { script := "gmail_backup_and_clean/1_files_from_mbox.py", args := [], prompts := false },
    { script := "gmail_backup_and_clean/2_consolidate_files_into_single_pdf.py"
      args := [{ name := "source", kind := ArgKind.positional },
               { name := "dest", kind := ArgKind.positional }]
      prompts := false },
    { script := "gmail_backup_and_clean/3_pdf_repair.py", args := [], prompts := false },
    { script := "gmail_backup_and_clean/4_pdf_compress.py", args := [], prompts := false },
    { script := "gmail_backup_and_clean/5_json_consolidater.py", args := [], prompts := false },
    { script := "gmail_backup_and_clean/json_email_search.py", args := [], prompts := false },
    { script := "state_department/state_dep_allowances.py", args := [], prompts := false },
    { script := "state_department/summarize_germ_data.py", args := [], prompts := false } ]

/-- The property claimed of every script: at most two command-line
arguments, or no arguments at all together with interactive prompting. -/
def cliClaimHolds (s : ScriptCli) : Bool :=
  s.args.length ≤ 2 || (s.args.length == 0 && s.prompts)

/-- C6 counterexample: the FBI Vault scraper is in the repository yet
accepts four command-line arguments, so it neither takes at most two
arguments nor takes none, refuting the claim as stated. -/
theorem c6_counterexample :
    fbiVaultCli ∈ allScriptClis ∧ cliClaimHolds fbiVaultCli = false := by
  decide

/-- C6 amended: every script other than the FBI Vault scraper accepts at
most two command-line arguments or none (prompting interactively when it
needs input), while the FBI Vault scraper accepts exactly one positional
argument plus three optional flags and also prompts interactively. -/
theorem c6_amended_cli_surface :
    ((allScriptClis.filter (fun s => s.script ≠ fbiVaultCli.script)).all
        cliClaimHolds = true) ∧
      (fbiVaultCli.args.filter (fun a => a.kind == ArgKind.positional)).length = 1 ∧
      (fbiVaultCli.args.filter (fun a => a.kind == ArgKind.flag)).length = 3 ∧
      fbiVaultCli.prompts = true := by
  decide

/-! ## Idempotent re-runs: skip items whose output exists  (claim C5)

Three per-script models of the skip logic for already-produced outputs:
the CIA layer-1 document loop (cia_rdp96_app.py lines 71-96), the
state-department per-date loop (state_dep_allowances.py lines 19-24) and
the PDF repair script's filter (3_pdf_repair.py lines 156-164).  Each
model returns the list of items actually processed and the file writes
performed, given which outputs already exist. -/

/-- Splitting a character list on a separator character, mirroring
Python str.split with an explicit separator. -/
def splitOnChar (sep : Char) : List Char → List (List Char)
  | [] => [[]]
  | c :: rest =>
    let r := splitOnChar sep rest
    if c = sep then [] :: r
    else
      match r with
      | [] => [[c]]
      | g :: gs => (c :: g) :: gs

/-- cia_rdp96_app.py lines 82 and 93: the document id of a url is the
last component of url.split with separator slash. -/
def docId (url : String) : String :=
  String.mk ((splitOnChar '/' url.toList).getLastD [])

/-- cia_rdp96_app.py lines 79-84: keep only urls whose document id is
not among the already-downloaded layer-1 stems. -/
def urlsToScrape (downloaded : List String) (urls : List String) : List String :=
  urls.filter (fun u => ¬ docId u ∈ downloaded)

/-- cia_rdp96_app.py lines 88-102: fetch each remaining url; on success
write layer_1/(doc id).html, on an exception print and continue.  The
fetch oracle returns none when driver.get raises.  Returns the (doc id,
page source) pairs written. -/
def layer1Loop (fetch : String → Option String) : List String → List (String × String)
  | [] => []
  | u :: rest =>
    match fetch u with
    | some page => (docId u, page) :: layer1Loop fetch rest
    | none => layer1Loop fetch rest

/-- The whole of scrape_document_pages (lines 67-103): filter already
downloaded ids, then scrape the rest. -/
def scrapeDocumentPages (fetch : String → Option String)
    (downloaded : List String) (urls : List String) : List (String × String) :=
  layer1Loop fetch (urlsToScrape downloaded urls)

/-- state_dep_allowances.py line 21: output CSV path for a date value. -/
def csvPath (dateVal : String) : String :=
  "output/tables/" ++ dateVal ++ ".csv"

/-- state_dep_allowances.py lines 19-24: the dates actually navigated to
and scraped are those whose CSV does not already exist. -/
def datesToScrape (existing : List String) (dateVals : List String) : List String :=
  dateVals.filter (fun d => ¬ csvPath d ∈ existing)

/-- One input PDF of the repair script together with the state of its
output path: whether a repaired file exists there and its size in bytes. -/
structure RepairItem where
  relPath : String
  outExists : Bool
  outSize : Nat
  deriving DecidableEq, Repr

/-- 3_pdf_repair.py lines 156-164: an item goes into pdfs_to_process
unless its output exists with size greater than 1024 bytes. -/
def pdfsToProcess (items : List RepairItem) : List RepairItem :=
  items.filter (fun it => ¬ (it.outExists ∧ 1024 < it.outSize))

theorem layer1Loop_writes_not_downloaded (fetch : String → Option String)
    (downloaded : List String) (urls : List String) :
    ∀ w ∈ scrapeDocumentPages fetch downloaded urls, ¬ w.1 ∈ downloaded := by
  unfold scrapeDocumentPages
  generalize hus : urlsToScrape downloaded urls = us
  have hmem : ∀ u ∈ us, ¬ docId u ∈ downloaded := by
    intro u hu
    rw [← hus] at hu
    simpa using (List.mem_filter.mp hu).2
  clear hus
  induction us with
  | nil => intro w hw; simp [layer1Loop] at hw
  | cons u rest ih =>
    intro w hw
    have hu := hmem u (by simp)
    have hrest : ∀ v ∈ rest, ¬ docId v ∈ downloaded := fun v hv =>
      hmem v (List.mem_cons_of_mem u hv)
    simp only [layer1Loop] at hw
    cases hfetch : fetch u with
    | some page =>
      rw [hfetch] at hw
      rcases List.mem_cons.mp hw with h | h
      · subst h; exact hu
      · exact ih hrest w h
    | none =>
      rw [hfetch] at hw
      exact ih hrest w hw

/-- C5: a second run skips every item whose output already exists: an
already-downloaded CIA document id is filtered out of the scraping list
and no layer-1 write targets it; a date whose CSV exists is filtered out
of the state-department loop; a PDF whose repaired output exists with
more than 1024 bytes is filtered out of the repair work list. -/
theorem c5_idempotent_reruns (fetch : String → Option String)
    (downloaded urls : List String) (existing dateVals : List String)
    (items : List RepairItem) :
    (∀ u ∈ urls, docId u ∈ downloaded → ¬ u ∈ urlsToScrape downloaded urls) ∧
      (∀ w ∈ scrapeDocumentPages fetch downloaded urls, ¬ w.1 ∈ downloaded) ∧
      (∀ d ∈ dateVals, csvPath d ∈ existing → ¬ d ∈ datesToScrape existing dateVals) ∧
      (∀ it ∈ items, it.outExists = true → 1024 < it.outSize →
        ¬ it ∈ pdfsToProcess items) := by
  refine ⟨?_, layer1Loop_writes_not_downloaded fetch downloaded urls, ?_, ?_⟩
  · intro u _ hdl hmem
    have := (List.mem_filter.mp hmem).2
    simp [hdl] at this
  · intro d _ hex hmem
    have := (List.mem_filter.mp hmem).2
    simp [hex] at this
  · intro it _ hex hsz hmem
    have := (List.mem_filter.mp hmem).2
    simp [hex, hsz] at this

/-- Witness for c5_idempotent_reruns at a concrete state: one already
downloaded CIA document, one existing CSV date, one repaired PDF. -/
theorem c5_idempotent_reruns_witness :
    ¬ ("https://www.cia.gov/readingroom/document/cia-rdp96-a" ∈
        urlsToScrape ["cia-rdp96-a"] ["https://www.cia.gov/readingroom/document/cia-rdp96-a"]) ∧
      ¬ ("2024-01-01" ∈ datesToScrape ["output/tables/2024-01-01.csv"] ["2024-01-01"]) ∧
      ¬ (RepairItem.mk "a.pdf" true 2000 ∈ pdfsToProcess [RepairItem.mk "a.pdf" true 2000]) := by
  refine ⟨?_, ?_, ?_⟩
  · exact (c5_idempotent_reruns (fun _ => none) ["cia-rdp96-a"]
      ["https://www.cia.gov/readingroom/document/cia-rdp96-a"] [] [] []).1
      "https://www.cia.gov/readingroom/document/cia-rdp96-a" (by decide) (by decide)
  · exact (c5_idempotent_reruns (fun _ => none) [] []
      ["output/tables/2024-01-01.csv"] ["2024-01-01"] []).2.2.1
      "2024-01-01" (by decide) (by decide)
  · exact (c5_idempotent_reruns (fun _ => none) [] [] [] []
      [RepairItem.mk "a.pdf" true 2000]).2.2.2
      (RepairItem.mk "a.pdf" true 2000) (by decide) rfl (by decide)

/-! ## Master-metadata consolidation and email search  (claim C9)

A small JSON value type, the per-email metadata object written by
1_files_from_mbox.py (lines 249-264), the master file assembled by
5_json_consolidater.py create_master_json (lines 36-59), and the search
loop of json_email_search.py (lines 32-48). -/

/-- A JSON value, as far as these scripts construct and inspect one. -/
inductive JVal where
  | str (s : String)
  | num (n : Int)
  | arr (xs : List JVal)
  | obj (fields : List (String × JVal))

/-- dict.get on a JSON object: the value stored under the key, or the
default when the key is absent or the value is not an object. -/
def jget (v : JVal) (key : String) (dflt : JVal) : JVal :=
  match v with
  | JVal.obj fields =>
    match fields.find? (fun kv => kv.1 == key) with
    | some kv => kv.2
    | none => dflt
  | _ => dflt

/-- View a JSON value as an object's field list. -/
def jfields : JVal → List (String × JVal)
  | JVal.obj fields => fields
  | _ => []

/-- View a JSON value as an array. -/
def jitems : JVal → List JVal
  | JVal.arr xs => xs
  | _ => []

/-- View a JSON value as a string, defaulting to the empty string, like
email.get of the search script with default a string. -/
def jstr : JVal → String
  | JVal.str s => s
  | _ => ""

/-- The metadata fields of one exported email. -/
structure EmailMeta where
  fromAddr : String
  toAddr : String
  date : String
  subject : String
  tags : List String
  body : String
  attachments : List String
  emailPdf : String
  originalDateString : String
  folder : String

/-- The JSON object 1_files_from_mbox.py writes per email (process_mbox
lines 251-264): exactly these eleven keys, none of them named emails. -/
def emailJson (m : EmailMeta) : JVal :=
  JVal.obj
    [("from", JVal.str m.fromAddr),
     ("to", JVal.str m.toAddr),
     ("date", JVal.str m.date),
     ("subject", JVal.str m.subject),
     ("tags", JVal.arr (m.tags.map JVal.str)),
     ("body", JVal.str m.body),
     ("attachments", JVal.arr (m.attachments.map JVal.str)),
     ("attachment_count", JVal.num m.attachments.length),
     ("email_pdf", JVal.str m.emailPdf),
     ("original_date_string", JVal.str m.originalDateString),
     ("folder", JVal.str m.folder)]

/-- create_master_json (5_json_consolidater.py lines 36-59): each loaded
per-email metadata object is stored directly under files at its relative
path. -/
def masterJson (generated : String) (files : List (String × JVal)) : JVal :=
  JVal.obj
    [("generated", JVal.str generated),
     ("source_directory", JVal.str "gmail_consolidated"),
     ("destination_directory", JVal.str "gmail_pdf_fixed"),
     ("total_json_files", JVal.num files.length),
     ("files", JVal.obj files)]

/-- Substring test on strings, mirroring the Python in operator. -/
def strContains (haystack needle : String) : Bool :=
  decide (List.IsInfix needle.toList haystack.toList)

/-- json_email_search.py lines 37-47: the combined lower-cased searchable
text of one email object and the all-terms conjunction. -/
def emailMatches (terms : List String) (email : JVal) : Bool :=
  let searchable :=
    String.intercalate " "
      [jstr (jget email "subject" (JVal.str "")),
       jstr (jget email "body" (JVal.str "")),
       jstr (jget email "from" (JVal.str "")),
       jstr (jget email "to" (JVal.str "")),
       String.intercalate " " ((jitems (jget email "tags" (JVal.arr []))).map jstr)]
  terms.all (fun t => strContains searchable.toLower t.toLower)

/-- The search loop of json_email_search.py lines 32-48: for every entry
of files, iterate over its emails key with default an empty list, and
collect the emails matching all terms. -/
def searchMatches (data : JVal) (terms : List String) : List JVal :=
  (jfields (jget data "files" (JVal.obj []))).flatMap
    (fun kv => (jitems (jget kv.2 "emails" (JVal.arr []))).filter (emailMatches terms))

theorem jget_emailJson_emails (m : EmailMeta) (d : JVal) :
    jget (emailJson m) "emails" d = d := rfl

/-- C9: searching a master_metadata.json assembled from per-email
metadata objects of the mbox exporter always yields zero matches: the
search iterates a non-existent emails key of each stored object. -/
theorem c9_search_always_empty (generated : String)
    (metas : List (String × EmailMeta)) (terms : List String) :
    searchMatches
        (masterJson generated (metas.map (fun pm => (pm.1, emailJson pm.2)))) terms
      = [] := by
  unfold searchMatches masterJson
  rw [show jget (JVal.obj
      [("generated", JVal.str generated),
       ("source_directory", JVal.str "gmail_consolidated"),
       ("destination_directory", JVal.str "gmail_pdf_fixed"),
       ("total_json_files", JVal.num (metas.map (fun pm => (pm.1, emailJson pm.2))).length),
       ("files", JVal.obj (metas.map (fun pm => (pm.1, emailJson pm.2))))]) "files"
      (JVal.obj []) = JVal.obj (metas.map (fun pm => (pm.1, emailJson pm.2))) from rfl]
  induction metas with
  | nil => rfl
  | cons pm rest ih =>
    simpa [jfields, List.flatMap_cons, jget_emailJson_emails, jitems] using ih

/-! ## FBI Vault scraper: tracking-file entries  (claim C3)

Entries of the downloaded_(term).json tracking file are modelled as JSON
objects (association lists of string fields).  The scraper appends
entries in process_single_document_download (app.py lines 1120-1125) and
download_missing_documents (lines 1281-1286), and mutates only the ocr
field in process_ocr_phase (lines 1485, 1489, 1501); every write of the
tracking file serialises the current list (lines 1129, 1289, 1493,
1504). -/

/-- One tracking-file entry: a JSON object of string fields. -/
abbrev TrackEntry := List (String × String)

/-- The dict literal appended at app.py lines 1120-1125 and 1281-1286. -/
def mkTrackingEntry (path url title : String) : TrackEntry :=
  [("path", path), ("url", url), ("title", title), ("ocr", "pending")]

/-- The ocr status string stored on OCR success or failure (app.py
lines 1485, 1489, 1501). -/
def ocrValue (success : Bool) : String :=
  if success then "complete" else "failed"

/-- Assignment to the ocr key of an entry. -/
def setOcr (v : String) (e : TrackEntry) : TrackEntry :=
  e.map (fun kv => if kv.1 == "ocr" then (kv.1, v) else kv)

/-- The value of an entry's ocr field, when present. -/
def ocrOf (e : TrackEntry) : Option String :=
  (e.find? (fun kv => kv.1 == "ocr")).map Prod.snd

/-- List update at an index, leaving the list unchanged out of range. -/
def modifyEntryAt (i : Nat) (f : TrackEntry → TrackEntry) :
    List TrackEntry → List TrackEntry
  | [] => []
  | e :: rest =>
    match i with
    | 0 => f e :: rest
    | Nat.succ j => e :: modifyEntryAt j f rest

/-- The operations the scraper ever performs on the in-memory tracking
list between two serialisations: appending a freshly downloaded entry,
or recording an OCR outcome on one entry. -/
inductive TrackOp where
  | append (path url title : String)
  | markOcr (i : Nat) (success : Bool)

/-- Effect of one operation on the tracking list. -/
def applyTrackOp (l : List TrackEntry) : TrackOp → List TrackEntry
  | TrackOp.append p u t => l ++ [mkTrackingEntry p u t]
  | TrackOp.markOcr i success => modifyEntryAt i (setOcr (ocrValue success)) l

/-- Effect of a sequence of operations. -/
def applyTrackOps (ops : List TrackOp) (l : List TrackEntry) : List TrackEntry :=
  ops.foldl applyTrackOp l

/-- The claimed shape: exactly the fields path, url, title, ocr, with
the ocr field one of pending, complete, failed. -/
def wellFormedEntry (e : TrackEntry) : Prop :=
  e.map Prod.fst = ["path", "url", "title", "ocr"] ∧
    (ocrOf e = some "pending" ∨ ocrOf e = some "complete" ∨ ocrOf e = some "failed")

theorem wellFormedEntry_mk (p u t : String) :
    wellFormedEntry (mkTrackingEntry p u t) := by
  exact ⟨rfl, Or.inl rfl⟩

theorem exists_fields_of_keys (e : TrackEntry)
    (h : e.map Prod.fst = ["path", "url", "title", "ocr"]) :
    ∃ a b c d, e = [("path", a), ("url", b), ("title", c), ("ocr", d)] := by
  rcases e with _ | ⟨⟨k1, a⟩, _ | ⟨⟨k2, b⟩, _ | ⟨⟨k3, c⟩, _ | ⟨⟨k4, d⟩, rest⟩⟩⟩⟩ <;>
    simp_all

theorem wellFormedEntry_setOcr (v : String) (e : TrackEntry)
    (hwf : wellFormedEntry e)
    (hv : v = "pending" ∨ v = "complete" ∨ v = "failed") :
    wellFormedEntry (setOcr v e) := by
  obtain ⟨a, b, c, d, rfl⟩ := exists_fields_of_keys e hwf.1
  refine ⟨?_, ?_⟩
  · simp [setOcr]
  · rcases hv with h | h | h <;> subst h <;>
      simp [setOcr, ocrOf, List.find?]

theorem modifyEntryAt_wf (i : Nat) (f : TrackEntry → TrackEntry)
    (hf : ∀ e, wellFormedEntry e → wellFormedEntry (f e))
    (l : List TrackEntry) (hl : ∀ e ∈ l, wellFormedEntry e) :
    ∀ e ∈ modifyEntryAt i f l, wellFormedEntry e := by
  induction l generalizing i with
  | nil => intro e he; simp [modifyEntryAt] at he
  | cons x rest ih =>
    intro e he
    cases i with
    | zero =>
      simp only [modifyEntryAt] at he
      rcases List.mem_cons.mp he with h | h
      · exact h ▸ hf x (hl x (by simp))
      · exact hl e (List.mem_cons_of_mem x h)
    | succ j =>
      simp only [modifyEntryAt] at he
      rcases List.mem_cons.mp he with h | h
      · exact h ▸ hl x (by simp)
      · exact ih j (fun e he => hl e (List.mem_cons_of_mem x he)) e h

theorem applyTrackOp_wf (l : List TrackEntry) (op : TrackOp)
    (hl : ∀ e ∈ l, wellFormedEntry e) :
    ∀ e ∈ applyTrackOp l op, wellFormedEntry e := by
  cases op with
  | append p u t =>
    intro e he
    rcases List.mem_append.mp he with h | h
    · exact hl e h
    · simp at h
      exact h ▸ wellFormedEntry_mk p u t
  | markOcr i success =>
    refine modifyEntryAt_wf i _ ?_ l hl
    intro e hwf
    refine wellFormedEntry_setOcr _ e hwf ?_
    cases success <;> simp [ocrValue]

/-- C3: starting from a tracking list of well-shaped entries, every list
the scraper can serialise after any sequence of appends and OCR updates
again consists only of entries with exactly the fields path, url, title
and ocr; fresh appends carry ocr pending, and OCR updates write only
complete or failed. -/
theorem c3_tracking_file_shape (ops : List TrackOp) (init : List TrackEntry)
    (h : ∀ e ∈ init, wellFormedEntry e) :
    (∀ e ∈ applyTrackOps ops init, wellFormedEntry e) ∧
      (∀ p u t, (mkTrackingEntry p u t).map Prod.fst = ["path", "url", "title", "ocr"] ∧
        ocrOf (mkTrackingEntry p u t) = some "pending") ∧
      (∀ success, ocrValue success = "complete" ∨ ocrValue success = "failed") := by
  refine ⟨?_, fun p u t => ⟨rfl, rfl⟩, fun success => ?_⟩
  · induction ops generalizing init with
    | nil => exact h
    | cons op rest ih =>
      intro e he
      exact ih (applyTrackOp init op) (applyTrackOp_wf init op h) e he
  · cases success <;> simp [ocrValue]

/-- Witness for c3_tracking_file_shape: after one download and one OCR
pass on an initially empty tracking list, the single entry still has the
claimed shape. -/
theorem c3_tracking_file_shape_witness :
    wellFormedEntry [("path", "a.pdf"), ("url", "u"), ("title", "t"), ("ocr", "complete")] := by
  exact (c3_tracking_file_shape
      [TrackOp.append "a.pdf" "u" "t", TrackOp.markOcr 0 true] []
      (by simp)).1
      [("path", "a.pdf"), ("url", "u"), ("title", "t"), ("ocr", "complete")]
      (by decide)

/-! ## FBI Vault scraper: retry loops  (claim C1)

The per-document download retry loop of process_single_document_download
(app.py lines 1088-1160) and the OCR processing loop of
process_ocr_phase (lines 1413-1527).  Sleeps are pure pacing and carry
no state, so they are dropped.  Attempt outcomes and the user's answers
to the interactive continue prompts are oracles. -/

/-- OCR status of one tracked PDF (the three values the scraper ever
stores). -/
inductive OcrStatus where
  | pending
  | complete
  | failed
  deriving DecidableEq, Repr

/-- app.py line 1419: number of entries with ocr complete. -/
def countComplete (st : List OcrStatus) : Nat :=
  st.countP (fun s => s == OcrStatus.complete)

/-- app.py line 1420: number of entries with ocr failed. -/
def countFailed (st : List OcrStatus) : Nat :=
  st.countP (fun s => s == OcrStatus.failed)

/-- app.py line 1415: max_ocr_attempts. -/
def maxOcrAttempts : Nat := 3

/-- app.py line 1078: max_retries of the download loop. -/
def maxDownloadRetries : Nat := 3

/-- Outcome of one download attempt: page yielded no PDF link (lines
1105-1110), the download produced no file (lines 1138-1140), an
exception (lines 1142-1157), or success (lines 1119-1137). -/
inductive DlOutcome where
  | success
  | noPdfUrl
  | noFile
  | excn
  deriving DecidableEq, Repr

/-- The while retry_count < max_retries loop (lines 1088-1160), indexed
by remaining attempts; returns the number of attempts made and whether
the document was downloaded. -/
def downloadLoopAux (outcome : Nat → DlOutcome) : Nat → Nat → Nat × Bool
  | 0, retryCount => (retryCount, false)
  | Nat.succ remaining, retryCount =>
    match outcome retryCount with
    | DlOutcome.success => (retryCount + 1, true)
    | DlOutcome.noPdfUrl => downloadLoopAux outcome remaining (retryCount + 1)
    | DlOutcome.noFile => downloadLoopAux outcome remaining (retryCount + 1)
    | DlOutcome.excn => downloadLoopAux outcome remaining (retryCount + 1)

/-- The retry loop entered with retry_count 0. -/
def downloadLoop (outcome : Nat → DlOutcome) : Nat × Bool :=
  downloadLoopAux outcome maxDownloadRetries 0

theorem downloadLoopAux_le (outcome : Nat → DlOutcome) (remaining retryCount : Nat) :
    (downloadLoopAux outcome remaining retryCount).1 ≤ remaining + retryCount := by
  induction remaining generalizing retryCount with
  | zero => simp [downloadLoopAux]
  | succ r ih =>
    simp only [downloadLoopAux]
    cases outcome retryCount
    case success => simp; omega
    all_goals exact le_trans (ih (retryCount + 1)) (by omega)

/-- One pass of the for loop over downloaded_pdfs (app.py lines
1443-1505), starting at entry index i: complete entries are skipped,
failed entries are skipped once ocr_attempts reached max_ocr_attempts,
every other entry ends the pass as complete or failed according to the
OCR outcome oracle. -/
def ocrPassFrom (ok : Nat → Bool) (attempts : Nat) : Nat → List OcrStatus → List OcrStatus
  | _, [] => []
  | i, s :: rest =>
    (match s with
     | OcrStatus.complete => OcrStatus.complete
     | OcrStatus.failed =>
       if maxOcrAttempts ≤ attempts then OcrStatus.failed
       else if ok i then OcrStatus.complete else OcrStatus.failed
     | OcrStatus.pending => if ok i then OcrStatus.complete else OcrStatus.failed)
    :: ocrPassFrom ok attempts (i + 1) rest

/-- One full pass over the tracking list. -/
def ocrPass (ok : Nat → Bool) (attempts : Nat) (st : List OcrStatus) : List OcrStatus :=
  ocrPassFrom ok attempts 0 st

/-- Result of running the OCR loop for a given number of iterations:
either it broke out (done) or it is still running when the iteration
budget ends, in both cases with the number of passes made over the PDF
list. -/
inductive OcrLoopResult where
  | running (passCount : Nat)
  | done (passCount : Nat)
  deriving DecidableEq, Repr

/-- Number of passes of a loop result. -/
def OcrLoopResult.passCount : OcrLoopResult → Nat
  | OcrLoopResult.running p => p
  | OcrLoopResult.done p => p

/-- The while True OCR loop of process_ocr_phase (app.py lines
1417-1527).  Arguments after the oracles: iteration budget, statuses,
ocr_attempts, next prompt index, passes made so far.  The loop breaks
when everything is complete (line 1431); once ocr_attempts reached
max_ocr_attempts it asks the user before (lines 1434-1440) and after
(lines 1519-1527) each further pass, breaking on a negative answer, and
otherwise keeps iterating. -/
def ocrLoop (ok : Nat → Nat → Bool) (user : Nat → Bool) :
    Nat → List OcrStatus → Nat → Nat → Nat → OcrLoopResult
  | 0, _, _, _, passCt => OcrLoopResult.running passCt
  | Nat.succ budget, st, attempts, promptIdx, passCt =>
    if countComplete st = st.length then
      OcrLoopResult.done passCt
    else
      let prompted := decide (maxOcrAttempts ≤ attempts) && decide (0 < countFailed st)
      if prompted && !user promptIdx then
        OcrLoopResult.done passCt
      else
        let pIdx := if prompted then promptIdx + 1 else promptIdx
        let st2 := ocrPass (ok passCt) attempts st
        let att2 := attempts + 1
        if countComplete st2 < st2.length then
          if att2 < maxOcrAttempts then
            ocrLoop ok user budget st2 att2 pIdx (passCt + 1)
          else if user pIdx then
            ocrLoop ok user budget st2 att2 (pIdx + 1) (passCt + 1)
          else OcrLoopResult.done (passCt + 1)
        else ocrLoop ok user budget st2 att2 pIdx (passCt + 1)

/-- An OCR outcome oracle under which extraction never succeeds. -/
def ocrAlwaysFail : Nat → Nat → Bool := fun _ _ => false

/-- A user who answers yes to every continue prompt. -/
def userAlwaysYes : Nat → Bool := fun _ => true

/-- A user who answers no to every continue prompt. -/
def userAlwaysNo : Nat → Bool := fun _ => false

/-- C1 counterexample: with a single PDF whose OCR always fails and a
user who keeps answering yes, the OCR loop is still iterating after six
passes over the PDF list: the phase is not bounded by its fixed
max_ocr_attempts of three passes, refuting the claim as stated. -/
theorem c1_counterexample :
    ocrLoop ocrAlwaysFail userAlwaysYes 6 [OcrStatus.pending] 0 0 0
        = OcrLoopResult.running 6 ∧
      ¬ (ocrLoop ocrAlwaysFail userAlwaysYes 6 [OcrStatus.pending] 0 0 0).passCount
          ≤ maxOcrAttempts := by
  decide

theorem ocrLoop_succ (ok : Nat → Nat → Bool) (user : Nat → Bool)
    (budget : Nat) (st : List OcrStatus) (attempts promptIdx passCt : Nat) :
    ocrLoop ok user (budget + 1) st attempts promptIdx passCt =
      if countComplete st = st.length then
        OcrLoopResult.done passCt
      else
        let prompted := decide (maxOcrAttempts ≤ attempts) && decide (0 < countFailed st)
        if prompted && !user promptIdx then
          OcrLoopResult.done passCt
        else
          let pIdx := if prompted then promptIdx + 1 else promptIdx
          let st2 := ocrPass (ok passCt) attempts st
          let att2 := attempts + 1
          if countComplete st2 < st2.length then
            if att2 < maxOcrAttempts then
              ocrLoop ok user budget st2 att2 pIdx (passCt + 1)
            else if user pIdx then
              ocrLoop ok user budget st2 att2 (pIdx + 1) (passCt + 1)
            else OcrLoopResult.done (passCt + 1)
          else ocrLoop ok user budget st2 att2 pIdx (passCt + 1) := rfl

theorem countComplete_le_length (st : List OcrStatus) :
    countComplete st ≤ st.length :=
  List.countP_le_length _

theorem ocrLoop_done_of_complete (ok : Nat → Nat → Bool) (user : Nat → Bool)
    (budget : Nat) (st : List OcrStatus) (attempts promptIdx passCt : Nat)
    (h : countComplete st = st.length) :
    ocrLoop ok user (budget + 1) st attempts promptIdx passCt
      = OcrLoopResult.done passCt := by
  rw [ocrLoop_succ]
  simp [h]

theorem ocrLoop_userNo_bounded (ok : Nat → Nat → Bool) (budget : Nat)
    (st : List OcrStatus) (attempts promptIdx passCt : Nat)
    (hb : 2 ≤ budget) (hba : 4 ≤ budget + attempts) :
    ∃ p, p ≤ passCt + max 1 (maxOcrAttempts - attempts) ∧
      ocrLoop ok userAlwaysNo budget st attempts promptIdx passCt
        = OcrLoopResult.done p := by
  induction budget generalizing st attempts promptIdx passCt with
  | zero => omega
  | succ b ih =>
    rw [ocrLoop_succ]
    by_cases hc : countComplete st = st.length
    · exact ⟨passCt, by omega, by simp [hc]⟩
    · simp only [hc, if_false]
      by_cases hp : maxOcrAttempts ≤ attempts ∧ 0 < countFailed st
      · refine ⟨passCt, by omega, ?_⟩
        simp [hp.1, hp.2, userAlwaysNo]
      · have hprompt : (decide (maxOcrAttempts ≤ attempts)
            && decide (0 < countFailed st)) = false := by
          rcases Decidable.not_and_iff_or_not.mp hp with h | h <;> simp [h]
        simp only [hprompt, Bool.false_and, Bool.false_eq_true, if_false]
        set st2 := ocrPass (ok passCt) attempts st with hst2
        by_cases hc2 : countComplete st2 < st2.length
        · simp only [hc2, if_true]
          by_cases hatt : attempts + 1 < maxOcrAttempts
          · simp only [hatt, if_true]
            obtain ⟨p, hple, hrun⟩ := ih st2 (attempts + 1) promptIdx (passCt + 1)
              (by unfold maxOcrAttempts at hatt; omega)
              (by omega)
            refine ⟨p, ?_, hrun⟩
            unfold maxOcrAttempts at hatt hple ⊢
            omega
          · simp only [hatt, if_false, userAlwaysNo, Bool.false_eq_true, if_false]
            exact ⟨passCt + 1, by omega, rfl⟩
        · simp only [hc2, if_false]
          have hcomp : countComplete st2 = st2.length := by
            have := countComplete_le_length st2
            omega
          obtain ⟨b2, rfl⟩ : ∃ b2, b = b2 + 1 := ⟨b - 1, by omega⟩
          exact ⟨passCt + 1, by omega,
            ocrLoop_done_of_complete ok userAlwaysNo b2 st2 (attempts + 1)
              promptIdx (passCt + 1) hcomp⟩

/-- C1 amended: the per-document download retry loop makes at most
max_retries attempts, and the OCR phase makes at most max_ocr_attempts
passes over the PDF list and then stops whenever the user declines the
interactive continue prompts; only an explicit affirmative answer at
those prompts lets it run further passes. -/
theorem c1_amended_bounded_retries :
    (∀ outcome, (downloadLoop outcome).1 ≤ maxDownloadRetries) ∧
      (∀ ok st, ∃ p, p ≤ maxOcrAttempts ∧
        ocrLoop ok userAlwaysNo 4 st 0 0 0 = OcrLoopResult.done p) := by
  constructor
  · intro outcome
    have := downloadLoopAux_le outcome maxDownloadRetries 0
    simpa [downloadLoop] using this
  · intro ok st
    obtain ⟨p, hple, hrun⟩ :=
      ocrLoop_userNo_bounded ok 4 st 0 0 0 (by omega) (by omega)
    exact ⟨p, by simpa [maxOcrAttempts] using hple, hrun⟩

/-! ## FBI Vault scraper: phase ordering in run  (claim C4)

FBIVaultScraper.run (app.py lines 1301-1364) first executes the
paginated download loop (lines 1320-1346), then the verification pass
(verify_downloads_complete, lines 1215-1252, which re-scans the result
pages and downloads anything missing), and only then process_ocr_phase
(lines 1357-1364).  The observable actions are modelled as an event
trace. -/

/-- An observable action of run: appending a downloaded entry (ocr
pending) to the tracking list, scanning a results page during
verification, moving an entry's ocr field away from pending, or
appending an OCR document to the results list. -/
inductive PhaseEv where
  | download (i : Nat)
  | verifyScan (page : Nat)
  | ocrMark (i : Nat) (success : Bool)
  | resultAppend (i : Nat)

/-- Events that mutate an ocr field or append to the results list. -/
def isOcrEv : PhaseEv → Bool
  | PhaseEv.ocrMark _ _ => true
  | PhaseEv.resultAppend _ => true
  | _ => false

/-- Events that record a downloaded document. -/
def isDownloadEv : PhaseEv → Bool
  | PhaseEv.download _ => true
  | _ => false

/-- The tracking-list index (or page number) an event refers to. -/
def evIdx : PhaseEv → Nat
  | PhaseEv.download i => i
  | PhaseEv.verifyScan p => p
  | PhaseEv.ocrMark i _ => i
  | PhaseEv.resultAppend i => i

/-- The download loop (and the missing-document loop of verification):
one Bool per candidate document, true when the download succeeded and an
entry was appended at the next free index. -/
def dlTrace : Nat → List Bool → List PhaseEv
  | _, [] => []
  | nextIdx, true :: rest => PhaseEv.download nextIdx :: dlTrace (nextIdx + 1) rest
  | nextIdx, false :: rest => dlTrace nextIdx rest

/-- Events of one OCR pass starting at entry index i (app.py lines
1443-1505): complete entries produce nothing, failed entries are skipped
once attempts reached the maximum, successful OCR appends a result and
marks complete, anything else marks failed. -/
def ocrPassTraceFrom (ok : Nat → Bool) (attempts : Nat) :
    Nat → List OcrStatus → List PhaseEv
  | _, [] => []
  | i, s :: rest =>
    (match s with
     | OcrStatus.complete => []
     | OcrStatus.failed =>
       if maxOcrAttempts ≤ attempts then []
       else if ok i then [PhaseEv.resultAppend i, PhaseEv.ocrMark i true]
       else [PhaseEv.ocrMark i false]
     | OcrStatus.pending =>
       if ok i then [PhaseEv.resultAppend i, PhaseEv.ocrMark i true]
       else [PhaseEv.ocrMark i false])
    ++ ocrPassTraceFrom ok attempts (i + 1) rest

/-- Events of the whole OCR phase: one pass per outcome oracle, the
status list evolving by ocrPass. -/
def ocrPhaseTrace : List (Nat → Bool) → Nat → List OcrStatus → List PhaseEv
  | [], _, _ => []
  | ok :: more, attempts, st =>
    ocrPassTraceFrom ok attempts 0 st ++
      ocrPhaseTrace more (attempts + 1) (ocrPass ok attempts st)

/-- The event trace of FBIVaultScraper.run: the download loop, then the
verification pass (page scans plus downloads of anything missing), then
the OCR phase over exactly the recorded entries (the ones loaded from
the tracking file plus the ones appended by the two download loops). -/
def runTrace (initCount : Nat) (st0 : List OcrStatus)
    (dlOutcomes verOutcomes : List Bool) (verPages : Nat)
    (passOks : List (Nat → Bool)) : List PhaseEv :=
  let dl := dlTrace initCount dlOutcomes
  let afterDl := initCount + dlOutcomes.count true
  let ver := (List.range verPages).map PhaseEv.verifyScan ++ dlTrace afterDl verOutcomes
  let total := afterDl + verOutcomes.count true
  let entries := st0 ++ List.replicate (total - initCount) OcrStatus.pending
  dl ++ ver ++ ocrPhaseTrace passOks 0 entries

theorem dlTrace_not_ocr (n : Nat) (os : List Bool) :
    ∀ e ∈ dlTrace n os, isOcrEv e = false := by
  induction os generalizing n with
  | nil => intro e he; simp [dlTrace] at he
  | cons o rest ih =>
    intro e he
    cases o with
    | true =>
      rcases List.mem_cons.mp he with h | h
      · subst h; rfl
      · exact ih (n + 1) e h
    | false => exact ih n e he

theorem ocrPassTraceFrom_events (ok : Nat → Bool) (attempts : Nat)
    (st : List OcrStatus) (i : Nat) :
    ∀ e ∈ ocrPassTraceFrom ok attempts i st,
      isOcrEv e = true ∧ isDownloadEv e = false ∧ evIdx e < i + st.length := by
  induction st generalizing i with
  | nil => intro e he; simp [ocrPassTraceFrom] at he
  | cons s rest ih =>
    intro e he
    rcases List.mem_append.mp he with h | h
    · have hidx : ∀ x ∈ [PhaseEv.resultAppend i, PhaseEv.ocrMark i true],
          isOcrEv x = true ∧ isDownloadEv x = false ∧ evIdx x < i + (s :: rest).length := by
        intro x hx
        rcases List.mem_cons.mp hx with h | h
        · subst h; exact ⟨rfl, rfl, by simp [evIdx]⟩
        · simp at h; subst h; exact ⟨rfl, rfl, by simp [evIdx]⟩
      have hidx2 : ∀ x ∈ [PhaseEv.ocrMark i false],
          isOcrEv x = true ∧ isDownloadEv x = false ∧ evIdx x < i + (s :: rest).length := by
        intro x hx
        simp at hx; subst hx; exact ⟨rfl, rfl, by simp [evIdx]⟩
      cases s with
      | complete => simp at h
      | failed =>
        by_cases ha : maxOcrAttempts ≤ attempts
        · simp [ha] at h
        · by_cases hok : ok i
          · rw [if_neg ha, if_pos hok] at h; exact hidx e h
          · rw [if_neg ha, if_neg hok] at h; exact hidx2 e h
      | pending =>
        by_cases hok : ok i
        · rw [if_pos hok] at h; exact hidx e h
        · rw [if_neg hok] at h; exact hidx2 e h
    · obtain ⟨h1, h2, h3⟩ := ih (i + 1) e h
      exact ⟨h1, h2, by simp; omega⟩

theorem ocrPassFrom_length (ok : Nat → Bool) (attempts : Nat)
    (st : List OcrStatus) (i : Nat) :
    (ocrPassFrom ok attempts i st).length = st.length := by
  induction st generalizing i with
  | nil => rfl
  | cons s rest ih => simp [ocrPassFrom, ih]

theorem ocrPhaseTrace_events (passOks : List (Nat → Bool)) (attempts : Nat)
    (st : List OcrStatus) :
    ∀ e ∈ ocrPhaseTrace passOks attempts st,
      isOcrEv e = true ∧ isDownloadEv e = false ∧ evIdx e < st.length := by
  induction passOks generalizing attempts st with
  | nil => intro e he; simp [ocrPhaseTrace] at he
  | cons ok more ih =>
    intro e he
    rcases List.mem_append.mp he with h | h
    · simpa using ocrPassTraceFrom_events ok attempts st 0 e h
    · have := ih (attempts + 1) (ocrPass ok attempts st) e h
      rwa [show (ocrPass ok attempts st).length = st.length from
        ocrPassFrom_length ok attempts st 0] at this

/-- C4: the run trace splits into a download-and-verification phase,
during which no ocr field leaves pending and nothing is appended to the
results list, followed by the OCR phase, during which no document is
downloaded and every touched entry index is one of the entries recorded
in the tracking list at the end of the download phase. -/
theorem c4_phases_sequential (initCount : Nat) (st0 : List OcrStatus)
    (dlOutcomes verOutcomes : List Bool) (verPages : Nat)
    (passOks : List (Nat → Bool)) (hlen : st0.length = initCount) :
    ∃ phase1 phase2,
      runTrace initCount st0 dlOutcomes verOutcomes verPages passOks
          = phase1 ++ phase2 ∧
        (∀ e ∈ phase1, isOcrEv e = false) ∧
        (∀ e ∈ phase2, isOcrEv e = true ∧ isDownloadEv e = false ∧
          evIdx e < initCount + dlOutcomes.count true + verOutcomes.count true) := by
  refine ⟨dlTrace initCount dlOutcomes ++
      ((List.range verPages).map PhaseEv.verifyScan ++
        dlTrace (initCount + dlOutcomes.count true) verOutcomes),
    ocrPhaseTrace passOks 0
      (st0 ++ List.replicate
        (initCount + dlOutcomes.count true + verOutcomes.count true - initCount)
        OcrStatus.pending),
    by simp [runTrace], ?_, ?_⟩
  · intro e he
    rcases List.mem_append.mp he with h | h
    · exact dlTrace_not_ocr initCount dlOutcomes e h
    · rcases List.mem_append.mp h with h | h
      · obtain ⟨p, _, rfl⟩ := List.mem_map.mp h
        rfl
      · exact dlTrace_not_ocr _ verOutcomes e h
  · intro e he
    have := ocrPhaseTrace_events passOks 0 _ e he
    rw [List.length_append, List.length_replicate, hlen] at this
    exact ⟨this.1, this.2.1, by have := this.2.2; omega⟩

/-- Witness for c4_phases_sequential: one previously tracked entry, one
download, one verification page, one OCR pass. -/
theorem c4_phases_sequential_witness :
    List.length [OcrStatus.complete] = 1 ∧
      ∃ phase1 phase2,
        runTrace 1 [OcrStatus.complete] [true] [] 1 [fun _ => true]
            = phase1 ++ phase2 ∧
          (∀ e ∈ phase1, isOcrEv e = false) ∧
          (∀ e ∈ phase2, isOcrEv e = true ∧ isDownloadEv e = false ∧
            evIdx e < 1 + List.count true [true] + List.count true []) := by
  exact ⟨rfl, c4_phases_sequential 1 [OcrStatus.complete] [true] [] 1
    [fun _ => true] rfl⟩

/-! ## CIA reading-room scraper: failure handling of the two loops
(claim C2)

scrape_search_pages (cia_rdp96_app.py lines 19-41) is a while True loop
whose except clause prints and breaks; scrape_document_pages (lines
67-103, embedded above as layer1Loop) is a for loop whose except clause
prints and continues.  The fetch oracle returns none when driver.get
raises. -/

/-- The layer-0 while True loop (cia_rdp96_app.py lines 24-39): fetch
page page_no, save it, increment; on the first exception stop.  The
iteration budget only truncates the unbounded pagination. -/
def scrapeSearchPages (fetch : Nat → Option String) : Nat → Nat → List (Nat × String)
  | 0, _ => []
  | Nat.succ fuel, pageNo =>
    match fetch pageNo with
    | some page => (pageNo, page) :: scrapeSearchPages fetch fuel (pageNo + 1)
    | none => []

/-- A fetch oracle that fails exactly on page 4092 (the first page the
layer-0 loop requests) and succeeds everywhere else. -/
def cexFetch : Nat → Option String :=
  fun p => if p = 4092 then none else some "html"

/-- C2 counterexample: page 4093 is fetchable (and is saved when nothing
fails), yet after the single failure on page 4092 the layer-0 loop saves
nothing at all: one failing item terminates the whole loop instead of
being skipped, refuting the claim as stated for the layer-0 loop. -/
theorem c2_counterexample :
    cexFetch 4093 = some "html" ∧
      scrapeSearchPages cexFetch 5 4092 = [] ∧
      (4093, "html") ∈ scrapeSearchPages (fun _ => some "html") 5 4092 := by
  decide

theorem layer1Loop_mem (fetch : String → Option String) (urls : List String)
    (u : String) (page : String) (hu : u ∈ urls) (hf : fetch u = some page) :
    (docId u, page) ∈ layer1Loop fetch urls := by
  induction urls with
  | nil => simp at hu
  | cons v rest ih =>
    rcases List.mem_cons.mp hu with h | h
    · subst h
      simp [layer1Loop, hf]
    · simp only [layer1Loop]
      cases fetch v with
      | some pg => exact List.mem_cons_of_mem _ (ih h)
      | none => exact ih h

/-- C2 amended: in the CIA layer-1 per-document loop a failure on one
item never prevents any other item from being processed (every
successfully fetched url is saved, whatever happens to the others),
while the layer-0 search-page loop by design stops at the first failed
page fetch. -/
theorem c2_amended_failure_handling (fetch : String → Option String)
    (urls : List String) (u : String) (page : String)
    (fetchPg : Nat → Option String) (fuel pageNo : Nat)
    (hu : u ∈ urls) (hf : fetch u = some page) :
    (docId u, page) ∈ layer1Loop fetch urls ∧
      (fetchPg pageNo = none → scrapeSearchPages fetchPg fuel pageNo = []) := by
  refine ⟨layer1Loop_mem fetch urls u page hu hf, fun hnone => ?_⟩
  cases fuel with
  | zero => rfl
  | succ f => simp [scrapeSearchPages, hnone]

/-- Witness for c2_amended_failure_handling: a one-url batch whose fetch
succeeds, and a page fetch that fails immediately. -/
theorem c2_amended_failure_handling_witness :
    (docId "a/b", "h") ∈ layer1Loop (fun _ => some "h") ["a/b"] ∧
      ((fun _ => (none : Option String)) 0 = none →
        scrapeSearchPages (fun _ => none) 1 0 = []) := by
  exact c2_amended_failure_handling (fun _ => some "h") ["a/b"] "a/b" "h"
    (fun _ => none) 1 0 (by decide) rfl

/-! ## mbox exporter: sanitize_filename  (claim C10)

sanitize_filename (1_files_from_mbox.py lines 17-51) on character lists:
replace the invalid Windows characters by underscores, delete ASCII
control characters, collapse runs of underscores, strip leading and
trailing spaces and dots, substitute unnamed for an empty result, guard
reserved device names with an underscore, and cap the length by
truncating the stem to 95 characters and re-appending dots and the
extension.  os.path.splitext is modelled for strings free of path
separators (the slashes and backslashes were replaced in the first
step); uppercasing is Char.toUpper, which agrees with Python str.upper
on ASCII. -/

/-- The characters removed by re.sub at line 23. -/
def invalidFileChars : List Char := ['<', '>', ':', '"', '/', '\\', '|', '?', '*']

/-- The ASCII control characters removed by re.sub at line 26. -/
def isCtrlChar (c : Char) : Bool :=
  decide (c.toNat ≤ 31) || decide (c.toNat = 127)

/-- Line 23: invalid characters become underscores. -/
def replaceInvalid (s : List Char) : List Char :=
  s.map (fun c => if c ∈ invalidFileChars then '_' else c)

/-- Line 26: control characters are deleted. -/
def removeCtrl (s : List Char) : List Char :=
  s.filter (fun c => !isCtrlChar c)

/-- Line 29: each maximal run of underscores becomes one underscore. -/
def collapseUnderscores : List Char → List Char
  | [] => []
  | [c] => [c]
  | c :: d :: rest =>
    if c = '_' ∧ d = '_' then collapseUnderscores (d :: rest)
    else c :: collapseUnderscores (d :: rest)

/-- The strip set of line 32. -/
def isDotSpace (c : Char) : Bool := c == ' ' || c == '.'

/-- Removal of the maximal trailing run of spaces and dots. -/
def dropTrailingDotSpace : List Char → List Char
  | [] => []
  | c :: rest =>
    let r := dropTrailingDotSpace rest
    if r.isEmpty ∧ isDotSpace c then [] else c :: r

/-- Line 32: strip spaces and dots from both ends. -/
def stripDotSpace (s : List Char) : List Char :=
  dropTrailingDotSpace (s.dropWhile isDotSpace)

/-- Index of the last dot of the list, if any. -/
def lastDotIdx : List Char → Option Nat
  | [] => none
  | c :: rest =>
    match lastDotIdx rest with
    | some d => some (d + 1)
    | none => if c = '.' then some 0 else none

/-- os.path.splitext for a name without path separators: split at the
last dot unless every character before it is itself a dot. -/
def splitExt (s : List Char) : List Char × List Char :=
  match lastDotIdx s with
  | none => (s, [])
  | some d =>
    if (s.take d).all (fun c => c == '.') then (s, [])
    else (s.take d, s.drop d)

/-- The reserved Windows device names of lines 39-41. -/
def reservedNames : List (List Char) :=
  ["CON", "PRN", "AUX", "NUL", "COM1", "COM2", "COM3", "COM4", "COM5",
   "COM6", "COM7", "COM8", "COM9", "LPT1", "LPT2", "LPT3", "LPT4", "LPT5",
   "LPT6", "LPT7", "LPT8", "LPT9"].map String.toList

/-- Lines 23-36 of sanitize_filename: character cleanup, then unnamed
for an empty result. -/
def sanitizeBase (s : List Char) : List Char :=
  let f2 := stripDotSpace (collapseUnderscores (removeCtrl (replaceInvalid s)))
  if f2 = [] then "unnamed".toList else f2

/-- Lines 23-44 of sanitize_filename: everything before the length cap,
the reserved-device-name guard included. -/
def sanitizeCore (s : List Char) : List Char :=
  if ((splitExt (sanitizeBase s)).1.map Char.toUpper) ∈ reservedNames then
    '_' :: sanitizeBase s
  else sanitizeBase s

/-- Lines 47-49: over 100 characters, keep 95 characters of the stem,
three dots, and the whole extension. -/
def truncate100 (f : List Char) : List Char :=
  if 100 < f.length then
    (splitExt f).1.take 95 ++ ['.', '.', '.'] ++ (splitExt f).2
  else f

/-- sanitize_filename (lines 17-51). -/
def sanitizeFilename (s : List Char) : List Char :=
  if s = [] then "unnamed".toList else truncate100 (sanitizeCore s)

/-- The property C10 claims of sanitize_filename. -/
def sanitizeClaim (s : List Char) : Prop :=
  sanitizeFilename s ≠ [] ∧
    (∀ c ∈ sanitizeFilename s, ¬ c ∈ invalidFileChars) ∧
    (∀ c ∈ sanitizeFilename s, isCtrlChar c = false) ∧
    ¬ ((splitExt (sanitizeFilename s)).1.map Char.toUpper) ∈ reservedNames ∧
    (sanitizeFilename s).length ≤ 100

/-- A 106-character filename with a 10-character extension. -/
def cexFilename : List Char :=
  List.replicate 95 'x' ++ '.' :: List.replicate 10 'y'

example : sanitizeFilename "con.txt".toList = "_con.txt".toList := by decide
example : sanitizeFilename " a<b__c. ".toList = "a_b_c".toList := by decide
example : sanitizeFilename "...".toList = "unnamed".toList := by decide
example : (sanitizeFilename cexFilename).length = 109 := by decide

/-- C10 counterexample: on a 106-character name whose extension has 10
characters, sanitize_filename returns 95 stem characters, three dots and
the 11-character extension: 109 characters, over the claimed limit of
100, refuting the claim as stated. -/
theorem c10_counterexample : ¬ sanitizeClaim cexFilename := by
  intro h
  exact absurd h.2.2.2.2 (by decide)

theorem mem_of_mem_dropWhile {p : Char → Bool} {l : List Char} {c : Char}
    (h : c ∈ l.dropWhile p) : c ∈ l := by
  induction l with
  | nil => simpa using h
  | cons x rest ih =>
    rw [List.dropWhile_cons] at h
    split at h
    · exact List.mem_cons_of_mem x (ih h)
    · exact h

theorem mem_of_mem_collapseUnderscores {l : List Char} {c : Char}
    (h : c ∈ collapseUnderscores l) : c ∈ l := by
  induction l with
  | nil => simpa [collapseUnderscores] using h
  | cons x rest ih =>
    cases rest with
    | nil => simpa [collapseUnderscores] using h
    | cons d t =>
      simp only [collapseUnderscores] at h
      split at h
      · exact List.mem_cons_of_mem x (ih h)
      · rcases List.mem_cons.mp h with h | h
        · exact h ▸ List.mem_cons_self x (d :: t)
        · exact List.mem_cons_of_mem x (ih h)

theorem mem_of_mem_dropTrailingDotSpace {l : List Char} {c : Char}
    (h : c ∈ dropTrailingDotSpace l) : c ∈ l := by
  induction l with
  | nil => simpa [dropTrailingDotSpace] using h
  | cons x rest ih =>
    simp only [dropTrailingDotSpace] at h
    split at h
    · simp at h
    · rcases List.mem_cons.mp h with h | h
      · exact h ▸ List.mem_cons_self x rest
      · exact List.mem_cons_of_mem x (ih h)

/-- A character that survives sanitisation: not invalid, not a control
character. -/
def goodChar (c : Char) : Prop :=
  ¬ c ∈ invalidFileChars ∧ isCtrlChar c = false

instance goodChar.dec (c : Char) : Decidable (goodChar c) := by
  unfold goodChar
  infer_instance

theorem goodChar_of_mem_cleanup {s : List Char} {c : Char}
    (h : c ∈ removeCtrl (replaceInvalid s)) : goodChar c := by
  rcases List.mem_filter.mp h with ⟨hmem, hctrl⟩
  refine ⟨?_, by simpa using hctrl⟩
  rcases List.mem_map.mp hmem with ⟨a, _, rfl⟩
  split
  · decide
  · assumption

theorem goodChar_sanitizeBase (s : List Char) :
    ∀ c ∈ sanitizeBase s, goodChar c := by
  intro c h
  simp only [sanitizeBase] at h
  split at h
  · have : ∀ x ∈ "unnamed".toList, goodChar x := by decide
    exact this c h
  · exact goodChar_of_mem_cleanup
      (mem_of_mem_collapseUnderscores
        (mem_of_mem_dropWhile (mem_of_mem_dropTrailingDotSpace h)))

theorem goodChar_sanitizeCore (s : List Char) :
    ∀ c ∈ sanitizeCore s, goodChar c := by
  intro c h
  simp only [sanitizeCore] at h
  split at h
  · rcases List.mem_cons.mp h with h | h
    · subst h; decide
    · exact goodChar_sanitizeBase s c h
  · exact goodChar_sanitizeBase s c h

theorem splitExt_fst_subset (f : List Char) : (splitExt f).1 ⊆ f := by
  unfold splitExt
  cases lastDotIdx f with
  | none => exact List.Subset.refl f
  | some d =>
    by_cases hall : ((List.take d f).all fun c => c == '.') = true
    · simp [hall]
    · simp [hall, List.take_subset]

theorem splitExt_snd_subset (f : List Char) : (splitExt f).2 ⊆ f := by
  unfold splitExt
  cases lastDotIdx f with
  | none => simp
  | some d =>
    by_cases hall : ((List.take d f).all fun c => c == '.') = true
    · simp [hall]
    · simp [hall, List.drop_subset]

theorem goodChar_truncate100 (f : List Char) (hf : ∀ c ∈ f, goodChar c) :
    ∀ c ∈ truncate100 f, goodChar c := by
  intro c h
  unfold truncate100 at h
  split at h
  · simp only [List.mem_append] at h
    rcases h with (h | h) | h
    · exact hf c (splitExt_fst_subset f (List.take_subset 95 _ h))
    · have : c = '.' := by simpa using h
      subst this; decide
    · exact hf c (splitExt_snd_subset f h)
  · exact hf c h

theorem sanitizeBase_ne_nil (s : List Char) : sanitizeBase s ≠ [] := by
  simp only [sanitizeBase]
  split
  · decide
  · assumption

theorem sanitizeCore_ne_nil (s : List Char) : sanitizeCore s ≠ [] := by
  simp only [sanitizeCore]
  split
  · simp
  · exact sanitizeBase_ne_nil s

theorem truncate100_ne_nil (f : List Char) (h : f ≠ []) : truncate100 f ≠ [] := by
  unfold truncate100
  split
  · simp
  · exact h

theorem head_dropWhile_false {p : Char → Bool} {l : List Char} {c : Char}
    (h : (l.dropWhile p).head? = some c) : p c = false := by
  induction l with
  | nil => simp at h
  | cons x rest ih =>
    rw [List.dropWhile_cons] at h
    split at h
    · exact ih h
    · next hx =>
      simp only [List.head?_cons, Option.some.injEq] at h
      subst h
      simpa using hx

theorem head_dropTrailingDotSpace {l : List Char} {c : Char}
    (h : (dropTrailingDotSpace l).head? = some c) : l.head? = some c := by
  cases l with
  | nil => simpa [dropTrailingDotSpace] using h
  | cons x rest =>
    simp only [dropTrailingDotSpace] at h
    split at h
    · simp at h
    · simpa using h

theorem sanitizeBase_head_ne_dot (s : List Char) :
    ∀ c, (sanitizeBase s).head? = some c → c ≠ '.' := by
  intro c h
  simp only [sanitizeBase] at h
  split at h
  · simp only [show ("unnamed".toList : List Char) = 'u' :: "nnamed".toList from rfl,
      List.head?_cons, Option.some.injEq] at h
    subst h; decide
  · have := head_dropWhile_false (head_dropTrailingDotSpace h)
    intro hc
    subst hc
    simp [isDotSpace] at this

theorem sanitizeCore_head_ne_dot (s : List Char) :
    ∀ c, (sanitizeCore s).head? = some c → c ≠ '.' := by
  intro c h
  simp only [sanitizeCore] at h
  split at h
  · simp only [List.head?_cons, Option.some.injEq] at h
    subst h; decide
  · exact sanitizeBase_head_ne_dot s c h

theorem not_reserved_of_dot_mem {l : List Char} (h : ('.' : Char) ∈ l) :
    ¬ (l.map Char.toUpper ∈ reservedNames) := by
  intro hmem
  have hdot : ('.' : Char) ∈ l.map Char.toUpper :=
    List.mem_map.mpr ⟨'.', h, by decide⟩
  have hn : ∀ n ∈ reservedNames, ¬ ('.' : Char) ∈ n := by decide
  exact hn _ hmem hdot

theorem not_reserved_underscore (l : List Char) :
    ¬ ((('_' :: l).map Char.toUpper) ∈ reservedNames) := by
  intro hmem
  have hn : ∀ n ∈ reservedNames, n.head? ≠ some '_' := by decide
  have hh : (('_' :: l).map Char.toUpper).head? = some '_' := by
    rw [List.map_cons, show Char.toUpper '_' = '_' from by decide]
    rfl
  exact hn _ hmem hh

theorem forall_of_lastDotIdx_none (l : List Char) (h : lastDotIdx l = none) :
    ∀ c ∈ l, c ≠ '.' := by
  induction l with
  | nil => simp
  | cons x rest ih =>
    simp only [lastDotIdx] at h
    cases hrest : lastDotIdx rest with
    | some d => rw [hrest] at h; simp at h
    | none =>
      rw [hrest] at h
      intro c hc
      rcases List.mem_cons.mp hc with rfl | hc
      · intro hcd
        rw [if_pos hcd] at h
        simp at h
      · exact ih hrest c hc

theorem lastDotIdx_eq_none (l : List Char) (h : ∀ c ∈ l, c ≠ '.') :
    lastDotIdx l = none := by
  induction l with
  | nil => rfl
  | cons x rest ih =>
    simp only [lastDotIdx]
    rw [ih (fun c hc => h c (List.mem_cons_of_mem x hc))]
    simp [h x (List.mem_cons_self x rest)]

theorem lastDotIdx_append_dot (a b : List Char) (hb : ∀ c ∈ b, c ≠ '.') :
    lastDotIdx (a ++ '.' :: b) = some a.length := by
  induction a with
  | nil =>
    simp only [List.nil_append, lastDotIdx]
    rw [lastDotIdx_eq_none b hb]
    simp
  | cons x rest ih =>
    simp only [List.cons_append, lastDotIdx]
    simp [List.append_eq, ih]

theorem drop_lastDotIdx (l : List Char) (d : Nat) (h : lastDotIdx l = some d) :
    ∃ b, l.drop d = '.' :: b ∧ ∀ c ∈ b, c ≠ '.' := by
  induction l generalizing d with
  | nil => simp [lastDotIdx] at h
  | cons x rest ih =>
    simp only [lastDotIdx] at h
    cases hrest : lastDotIdx rest with
    | some d2 =>
      rw [hrest] at h
      simp only [Option.some.injEq] at h
      subst h
      obtain ⟨b, hb, hbc⟩ := ih d2 hrest
      exact ⟨b, by simpa [List.drop_succ_cons] using hb, hbc⟩
    | none =>
      rw [hrest] at h
      dsimp only at h
      by_cases hx : x = '.'
      · rw [if_pos hx] at h
        simp only [Option.some.injEq] at h
        subst hx
        rw [← h]
        exact ⟨rest, rfl, forall_of_lastDotIdx_none rest hrest⟩
      · rw [if_neg hx] at h
        simp at h

theorem head_dot_of_lastDotIdx_zero (l : List Char) (h : lastDotIdx l = some 0) :
    l.head? = some '.' := by
  cases l with
  | nil => simp [lastDotIdx] at h
  | cons x rest =>
    simp only [lastDotIdx] at h
    cases hrest : lastDotIdx rest with
    | some d => rw [hrest] at h; simp at h
    | none =>
      rw [hrest] at h
      dsimp only at h
      by_cases hx : x = '.'
      · subst hx; rfl
      · rw [if_neg hx] at h
        simp at h

theorem splitExt_append_dot (a b : List Char) (hb : ∀ c ∈ b, c ≠ '.')
    (ha : ∃ c ∈ a, c ≠ '.') :
    splitExt (a ++ '.' :: b) = (a, '.' :: b) := by
  unfold splitExt
  rw [lastDotIdx_append_dot a b hb]
  dsimp only
  have htake : (a ++ '.' :: b).take a.length = a := List.take_left a ('.' :: b)
  have hdrop : (a ++ '.' :: b).drop a.length = '.' :: b := List.drop_left a ('.' :: b)
  have hall : ((a ++ '.' :: b).take a.length).all (fun c => c == '.') = false := by
    rw [htake]
    obtain ⟨c, hc, hne⟩ := ha
    exact List.all_eq_false.mpr ⟨c, hc, by simpa using hne⟩
  rw [hall]
  simp [htake, hdrop]

theorem splitExt_snd_cases (f : List Char) :
    ((splitExt f).1 = f ∧ (splitExt f).2 = []) ∨
      (∃ d b, 1 ≤ d ∧ (splitExt f).1 = f.take d ∧ (splitExt f).2 = '.' :: b ∧
        (∀ c ∈ b, c ≠ '.')) := by
  unfold splitExt
  cases h : lastDotIdx f with
  | none => exact Or.inl ⟨rfl, rfl⟩
  | some d =>
    dsimp only
    by_cases hall : ((f.take d).all fun c => c == '.') = true
    · rw [if_pos hall]
      exact Or.inl ⟨rfl, rfl⟩
    · rw [if_neg hall]
      obtain ⟨b, hb, hbc⟩ := drop_lastDotIdx f d h
      right
      refine ⟨d, b, ?_, rfl, hb, hbc⟩
      rcases Nat.eq_zero_or_pos d with rfl | hd
      · simp at hall
      · exact hd

theorem splitExt_fst_cons (x : Char) (l : List Char) (hx : x ≠ '.')
    (hl : ∀ c, l.head? = some c → c ≠ '.') :
    (splitExt (x :: l)).1 = x :: (splitExt l).1 := by
  unfold splitExt
  cases h : lastDotIdx l with
  | none =>
    have hxl : lastDotIdx (x :: l) = none := by
      simp only [lastDotIdx, h]
      rw [if_neg hx]
    rw [hxl]
  | some d =>
    have hd1 : 1 ≤ d := by
      rcases Nat.eq_zero_or_pos d with rfl | hd
      · have := head_dot_of_lastDotIdx_zero l h
        cases l with
        | nil => simp [lastDotIdx] at h
        | cons y rest =>
          simp only [List.head?_cons, Option.some.injEq] at this
          exact absurd this (hl y rfl)
      · exact hd
    obtain ⟨c0, t, rfl⟩ : ∃ c0 t, l = c0 :: t := by
      cases l with
      | nil => simp [lastDotIdx] at h
      | cons y rest => exact ⟨y, rest, rfl⟩
    have hc0 : c0 ≠ '.' := hl c0 rfl
    have hxl : lastDotIdx (x :: c0 :: t) = some (d + 1) := by
      simp only [lastDotIdx] at h ⊢
      rw [h]
    rw [hxl]
    dsimp only
    obtain ⟨d2, rfl⟩ : ∃ d2, d = d2 + 1 := ⟨d - 1, by omega⟩
    have htk : (x :: c0 :: t).take (d2 + 1 + 1) = x :: (c0 :: t).take (d2 + 1) := rfl
    have htk2 : (c0 :: t).take (d2 + 1) = c0 :: t.take d2 := rfl
    have hallx : ((x :: c0 :: t).take (d2 + 1 + 1)).all (fun c => c == '.') = false := by
      rw [htk]
      exact List.all_eq_false.mpr ⟨x, by simp, by simpa using hx⟩
    have hallc : ((c0 :: t).take (d2 + 1)).all (fun c => c == '.') = false := by
      rw [htk2]
      exact List.all_eq_false.mpr ⟨c0, by simp, by simpa using hc0⟩
    simp [hallx, hallc, htk, htk2, hx, hc0]

theorem sanitizeCore_not_reserved (s : List Char) :
    ¬ ((splitExt (sanitizeCore s)).1.map Char.toUpper ∈ reservedNames) := by
  unfold sanitizeCore
  split
  · rw [splitExt_fst_cons '_' (sanitizeBase s) (by decide)
      (sanitizeBase_head_ne_dot s)]
    exact not_reserved_underscore _
  · assumption

theorem truncate100_long (f : List Char) (c0 : Char) (t : List Char)
    (hf : f = c0 :: t) (hlong : 100 < f.length) :
    ∃ a b,
      truncate100 f = a ++ '.' :: b ∧ (∀ c ∈ b, c ≠ '.') ∧ c0 ∈ a ∧
        ('.' : Char) ∈ a ∧
        a.length + (b.length + 1) ≤ 98 + (splitExt f).2.length := by
  unfold truncate100
  rw [if_pos hlong]
  rcases splitExt_snd_cases f with ⟨h1, h2⟩ | ⟨d, b, hd, h1, h2, hbc⟩
  · refine ⟨f.take 95 ++ ['.', '.'], [], ?_, by simp, ?_, by simp, ?_⟩
    · rw [h1, h2]
      simp
    · subst hf
      have h3 : (c0 :: t).take 95 = c0 :: t.take 94 := rfl
      rw [h3]
      simp
    · rw [h2]
      simp only [List.length_append, List.length_take, List.length_cons,
        List.length_nil]
      omega
  · refine ⟨(f.take d).take 95 ++ ['.', '.', '.'], b, ?_, hbc, ?_, by simp, ?_⟩
    · rw [h1, h2]
    · subst hf
      obtain ⟨d2, rfl⟩ : ∃ d2, d = d2 + 1 := ⟨d - 1, by omega⟩
      have h3 : (c0 :: t).take (d2 + 1) = c0 :: t.take d2 := rfl
      rw [h3]
      have h4 : (c0 :: t.take d2).take 95 = c0 :: (t.take d2).take 94 := rfl
      rw [h4]
      simp
    · rw [h2]
      simp only [List.length_append, List.length_take, List.length_cons,
        List.length_nil]
      omega

/-- C10 amended: sanitize_filename always returns a non-empty name with
no invalid Windows characters, no ASCII control characters and no
reserved device-name stem; its length is at most 100 except that the
length cap re-appends the whole extension, so a name truncated from over
100 characters can reach 98 characters plus the length of its extension. -/
theorem c10_amended_sanitize (s : List Char) :
    sanitizeFilename s ≠ [] ∧
      (∀ c ∈ sanitizeFilename s, ¬ c ∈ invalidFileChars) ∧
      (∀ c ∈ sanitizeFilename s, isCtrlChar c = false) ∧
      ¬ ((splitExt (sanitizeFilename s)).1.map Char.toUpper ∈ reservedNames) ∧
      (sanitizeFilename s).length ≤
        max 100 (98 + (splitExt (sanitizeCore s)).2.length) := by
  by_cases hs : s = []
  · subst hs
    refine ⟨by decide, by decide, by decide, by decide, ?_⟩
    have h7 : (sanitizeFilename []).length = 7 := by decide
    rw [h7]
    exact le_trans (by omega) (Nat.le_max_left _ _)
  · have hne := sanitizeCore_ne_nil s
    have hhead := sanitizeCore_head_ne_dot s
    have hgood := goodChar_sanitizeCore s
    have hnr := sanitizeCore_not_reserved s
    have hfil : sanitizeFilename s = truncate100 (sanitizeCore s) := by
      unfold sanitizeFilename
      rw [if_neg hs]
    by_cases hlong : 100 < (sanitizeCore s).length
    · obtain ⟨c0, t, hf⟩ : ∃ c0 t, sanitizeCore s = c0 :: t := by
        cases hc : sanitizeCore s with
        | nil => exact absurd hc hne
        | cons a l => exact ⟨a, l, rfl⟩
      have hc0 : c0 ≠ '.' := hhead c0 (by rw [hf]; rfl)
      obtain ⟨a, b, hr, hbdot, hc0a, hdota, hlen⟩ :=
        truncate100_long (sanitizeCore s) c0 t hf hlong
      rw [hfil, hr]
      refine ⟨by simp, ?_, ?_, ?_, ?_⟩
      · intro c hmem
        exact (goodChar_truncate100 _ hgood c (hr.symm ▸ hmem)).1
      · intro c hmem
        exact (goodChar_truncate100 _ hgood c (hr.symm ▸ hmem)).2
      · rw [splitExt_append_dot a b hbdot ⟨c0, hc0a, hc0⟩]
        exact not_reserved_of_dot_mem hdota
      · have hl2 : (a ++ '.' :: b).length = a.length + (b.length + 1) := by
          simp
        rw [hl2]
        exact le_trans hlen (Nat.le_max_right _ _)
    · have htr : truncate100 (sanitizeCore s) = sanitizeCore s := by
        unfold truncate100
        rw [if_neg hlong]
      rw [hfil, htr]
      exact ⟨hne, fun c hc => (hgood c hc).1, fun c hc => (hgood c hc).2, hnr,
        le_trans (by omega) (Nat.le_max_left _ _)⟩

/-- Witness for c10_amended_sanitize at the input con.txt, which
exercises the reserved-name guard. -/
theorem c10_amended_sanitize_witness :
    sanitizeFilename ("con.txt".toList) ≠ [] ∧
      (∀ c ∈ sanitizeFilename ("con.txt".toList), ¬ c ∈ invalidFileChars) ∧
      (∀ c ∈ sanitizeFilename ("con.txt".toList), isCtrlChar c = false) ∧
      ¬ ((splitExt (sanitizeFilename ("con.txt".toList))).1.map Char.toUpper
          ∈ reservedNames) ∧
      (sanitizeFilename ("con.txt".toList)).length ≤
        max 100 (98 + (splitExt (sanitizeCore ("con.txt".toList))).2.length) :=
  c10_amended_sanitize ("con.txt".toList)

end Spec2Proof
